import Mathlib

/-!
Verification of the client-side audio stitching pipeline of the dialogue page
(`src/app/dialogue/page.tsx`): decoding per-turn audio segments, mixing them
with silence gaps into one interleaved PCM buffer (`buildWavWithSilence`),
serializing to a WAV container (`floatToWav`), the best-effort MP3 splice
(`concatenateMp3`), and the download orchestrator (`downloadFullDialogue`).

Sample values are modelled as exact rationals.  For the inputs that actually
occur (32-bit floats scaled by numbers of at most 16 bits) every JavaScript
floating-point operation used by the code is exact, so the rational model
agrees with the implementation on its real inputs.
-/

namespace TTSApp

/-- JavaScript `Math.round` on an exact rational: round half towards
positive infinity, i.e. `⌊q + 1/2⌋`. -/
def jsRound (q : ℚ) : ℤ := ⌊q + 1 / 2⌋

/-- A decoded PCM segment, mirroring the fields of a Web Audio `AudioBuffer`:
`sampleRate`, `numberOfChannels`, `length` (frame count) and the per-channel
sample data (`getChannelData(ch)[f]` is `data ch f`). -/
structure DecodedSegment where
  sampleRate : ℕ
  numberOfChannels : ℕ
  length : ℕ
  data : ℕ → ℕ → ℚ

/-- Model of `AudioBuffer.getChannelData(ch)`: returns the channel's samples, or throws
(`none`) when `ch` is not smaller than the buffer's channel count. -/
def getChannelData (seg : DecodedSegment) (ch : ℕ) : Option (ℕ → ℚ) :=
  if ch < seg.numberOfChannels then some (seg.data ch) else none

/-- The clamp `Math.max(-1, Math.min(1, s))` from `floatToWav`. -/
def clampSample (s : ℚ) : ℚ := max (-1) (min 1 s)

/-- Truncation towards zero, as performed by `DataView.setInt16` on a
non-integral number. -/
def truncQ (q : ℚ) : ℤ := if q < 0 then ⌈q⌉ else ⌊q⌋

/-- The 16-bit integer produced for one sample in `floatToWav`:
`s = Math.max(-1, Math.min(1, s)); s = s < 0 ? s * 0x8000 : s * 0x7FFF;`
followed by `setInt16`'s truncation. -/
def floatToInt16 (s : ℚ) : ℤ :=
  truncQ (if clampSample s < 0 then clampSample s * 0x8000 else clampSample s * 0x7FFF)

/-- Little-endian bytes written by `DataView.setUint16` (value taken mod 2^16). -/
def u16le (v : ℕ) : List ℕ :=
  [v % 2 ^ 16 % 256, v % 2 ^ 16 / 256]

/-- Little-endian bytes written by `DataView.setUint32` (value taken mod 2^32). -/
def u32le (v : ℕ) : List ℕ :=
  [v % 2 ^ 32 % 256, v % 2 ^ 32 / 256 % 256, v % 2 ^ 32 / 2 ^ 16 % 256, v % 2 ^ 32 / 2 ^ 24]

/-- Little-endian bytes written by `DataView.setInt16`: the two's-complement
representation of the (truncated) value, i.e. its residue mod 2^16. -/
def i16le (v : ℤ) : List ℕ := u16le (v % 2 ^ 16).toNat

/-- The `writeString` helper in `floatToWav`: one byte per character (`charCodeAt`). -/
def strBytes (s : String) : List ℕ := s.data.map Char.toNat

/-- Model of `floatToWav(interleaved, sampleRate, channels)`: the 44-byte RIFF/WAVE
header followed by the samples converted to signed 16-bit little-endian. -/
def floatToWav (interleaved : List ℚ) (sampleRate : ℕ) (channels : ℕ) : List ℕ :=
  strBytes "RIFF" ++
  u32le (36 + interleaved.length * 2) ++
  strBytes "WAVE" ++
  strBytes "fmt " ++
  u32le 16 ++
  u16le 1 ++
  u16le channels ++
  u32le sampleRate ++
  u32le (sampleRate * (channels * 2)) ++
  u16le (channels * 2) ++
  u16le (2 * 8) ++
  strBytes "data" ++
  u32le (interleaved.length * 2) ++
  (interleaved.map (fun s => i16le (floatToInt16 s))).flatten

/-- Little-endian recombination of four bytes (used to read back a 32-bit
header field). -/
def decodeU32 : List ℕ → ℕ
  | [a, b, c, d] => a + 256 * b + 2 ^ 16 * c + 2 ^ 24 * d
  | _ => 0

/-- Little-endian recombination of two bytes (used to read back a 16-bit
header field). -/
def decodeU16 : List ℕ → ℕ
  | [a, b] => a + 256 * b
  | _ => 0

theorem strBytes_RIFF : strBytes "RIFF" = [0x52, 0x49, 0x46, 0x46] := by decide

theorem strBytes_WAVE : strBytes "WAVE" = [0x57, 0x41, 0x56, 0x45] := by decide

theorem strBytes_fmt : strBytes "fmt " = [0x66, 0x6d, 0x74, 0x20] := by decide

theorem strBytes_data : strBytes "data" = [0x64, 0x61, 0x74, 0x61] := by decide

theorem decodeU32_u32le (v : ℕ) (h : v < 2 ^ 32) : decodeU32 (u32le v) = v := by
  simp only [u32le, decodeU32]
  omega

theorem decodeU16_u16le (v : ℕ) (h : v < 2 ^ 16) : decodeU16 (u16le v) = v := by
  simp only [u16le, decodeU16]
  omega

theorem length_u32le (v : ℕ) : (u32le v).length = 4 := rfl

theorem length_u16le (v : ℕ) : (u16le v).length = 2 := rfl

theorem length_i16le (v : ℤ) : (i16le v).length = 2 := rfl

theorem length_sample_flatten (l : List ℚ) :
    ((l.map (fun s => i16le (floatToInt16 s))).flatten).length = 2 * l.length := by
  induction l with
  | nil => rfl
  | cons a t ih => simp only [List.map_cons, List.flatten_cons, List.length_append,
      List.length_cons, ih, length_i16le]; omega

theorem length_floatToWav (interleaved : List ℚ) (r c : ℕ) :
    (floatToWav interleaved r c).length = 44 + 2 * interleaved.length := by
  simp only [floatToWav, List.length_append, strBytes_RIFF, strBytes_WAVE, strBytes_fmt,
    strBytes_data, length_u32le, length_u16le, List.length_cons, List.length_nil,
    length_sample_flatten]

theorem clampSample_le (s : ℚ) : clampSample s ≤ 1 :=
  max_le (by norm_num) (min_le_left _ _)

theorem le_clampSample (s : ℚ) : -1 ≤ clampSample s := le_max_left _ _

theorem floatToInt16_bounds (s : ℚ) : -32768 ≤ floatToInt16 s ∧ floatToInt16 s ≤ 32767 := by
  have hlo := le_clampSample s
  have hhi := clampSample_le s
  unfold floatToInt16 truncQ
  by_cases hc : clampSample s < 0
  · rw [if_pos hc]
    have h1 : clampSample s * 0x8000 < 0 := by nlinarith
    rw [if_pos h1]
    constructor
    · have h2 : (-32768 : ℚ) ≤ clampSample s * 0x8000 := by nlinarith
      calc (-32768 : ℤ) = ⌈(-32768 : ℚ)⌉ := by
            rw [show (-32768 : ℚ) = ((-32768 : ℤ) : ℚ) from by norm_num, Int.ceil_intCast]
        _ ≤ ⌈clampSample s * 0x8000⌉ := Int.ceil_le_ceil h2
    · have h2 : ⌈clampSample s * 0x8000⌉ ≤ ⌈(0 : ℚ)⌉ := Int.ceil_le_ceil (le_of_lt h1)
      have h3 : ⌈(0 : ℚ)⌉ = 0 := by norm_num
      omega
  · rw [if_neg hc]
    push_neg at hc
    have h1 : ¬ clampSample s * 0x7FFF < 0 := by nlinarith
    rw [if_neg h1]
    constructor
    · have h2 : (0 : ℤ) ≤ ⌊clampSample s * 0x7FFF⌋ := Int.le_floor.mpr (by push_cast; nlinarith)
      omega
    · have h2 : clampSample s * 0x7FFF ≤ 32767 := by nlinarith
      calc ⌊clampSample s * 0x7FFF⌋ ≤ ⌊(32767 : ℚ)⌋ := Int.floor_le_floor h2
        _ = 32767 := by
            rw [show (32767 : ℚ) = ((32767 : ℤ) : ℚ) from by norm_num, Int.floor_intCast]

theorem flatten_drop_two (l : List ℚ) (i : ℕ) :
    ((l.map (fun s => i16le (floatToInt16 s))).flatten).drop (2 * i) =
      ((l.drop i).map (fun s => i16le (floatToInt16 s))).flatten := by
  induction i generalizing l with
  | zero => simp
  | succ n ih =>
    cases l with
    | nil => simp
    | cons a t =>
      rw [List.map_cons, List.flatten_cons, show 2 * (n + 1) = 2 + 2 * n from by ring,
        ← List.drop_drop, List.drop_left' (length_i16le _), ih, List.drop_succ_cons]

theorem floatToWav_split (l : List ℚ) (r c : ℕ) :
    floatToWav l r c =
      (strBytes "RIFF" ++ u32le (36 + l.length * 2) ++ strBytes "WAVE" ++ strBytes "fmt " ++
        u32le 16 ++ u16le 1 ++ u16le c ++ u32le r ++ u32le (r * (c * 2)) ++ u16le (c * 2) ++
        u16le (2 * 8) ++ strBytes "data" ++ u32le (l.length * 2)) ++
      (l.map (fun s => i16le (floatToInt16 s))).flatten := by
  simp [floatToWav, List.append_assoc]

theorem floatToWav_drop_44 (l : List ℚ) (r c : ℕ) :
    (floatToWav l r c).drop 44 = (l.map (fun s => i16le (floatToInt16 s))).flatten := by
  rw [floatToWav_split]
  exact List.drop_left' (by simp [strBytes_RIFF, strBytes_WAVE, strBytes_fmt, strBytes_data,
    length_u32le, length_u16le])

theorem floatToWav_data_sample (l : List ℚ) (r c i : ℕ) (s : ℚ) (h : l[i]? = some s) :
    ((floatToWav l r c).drop (44 + 2 * i)).take 2 = i16le (floatToInt16 s) := by
  have hi : i < l.length := by
    by_contra hlt
    rw [List.getElem?_eq_none (by omega)] at h
    exact Option.noConfusion h
  have hs : l[i] = s := by
    have := List.getElem?_eq_getElem hi
    rw [this] at h
    exact Option.some.inj h
  rw [← List.drop_drop, floatToWav_drop_44, flatten_drop_two,
    List.drop_eq_getElem_cons hi, hs, List.map_cons, List.flatten_cons]
  exact List.take_left' (length_i16le _)

/-- Claim C4: the 16-bit value written for input sample `s` is obtained by
clamping `s` to `[-1, 1]`, scaling by 32767 when the clamped value is
non-negative and by 32768 when it is negative, then truncating towards zero;
it always lies in `[-32768, 32767]`, and its two's-complement little-endian
bytes sit at data offset `44 + 2 i` of the WAV output. -/
theorem claim_C4_sample_quantization (l : List ℚ) (r c i : ℕ) (s : ℚ)
    (h : l[i]? = some s) :
    ((floatToWav l r c).drop (44 + 2 * i)).take 2 = i16le (floatToInt16 s) ∧
    floatToInt16 s =
      truncQ (if clampSample s < 0 then clampSample s * 32768 else clampSample s * 32767) ∧
    -32768 ≤ floatToInt16 s ∧ floatToInt16 s ≤ 32767 := by
  refine ⟨floatToWav_data_sample l r c i s h, rfl, ?_, ?_⟩
  · exact (floatToInt16_bounds s).1
  · exact (floatToInt16_bounds s).2

theorem claim_C4_witness :
    ((floatToWav [(1 : ℚ) / 2] 8000 1).drop (44 + 2 * 0)).take 2 =
      i16le (floatToInt16 ((1 : ℚ) / 2)) ∧
    floatToInt16 ((1 : ℚ) / 2) =
      truncQ (if clampSample ((1 : ℚ) / 2) < 0 then clampSample ((1 : ℚ) / 2) * 32768
        else clampSample ((1 : ℚ) / 2) * 32767) ∧
    -32768 ≤ floatToInt16 ((1 : ℚ) / 2) ∧ floatToInt16 ((1 : ℚ) / 2) ≤ 32767 :=
  claim_C4_sample_quantization [(1 : ℚ) / 2] 8000 1 0 ((1 : ℚ) / 2) rfl

theorem peel {w A T : List ℕ} (o k : ℕ) (h : w.drop o = A ++ T) (hA : A.length = k) :
    (w.drop o).take k = A ∧ w.drop (o + k) = T := by
  refine ⟨by rw [h]; exact List.take_left' hA, ?_⟩
  have h2 : (w.drop o).drop k = w.drop (o + k) := by rw [List.drop_drop, Nat.add_comm]
  rw [← h2, h]
  exact List.drop_left' hA

/-- Claim C3: the WAV output has length `44 + 2 * sampleCount`, the tags
RIFF/WAVE/fmt/data at offsets 0/8/12/36, and all little-endian header fields
as specified: ChunkSize `36 + dataSize`, Subchunk1Size 16, AudioFormat 1,
NumChannels, SampleRate, ByteRate `sampleRate * blockAlign`, BlockAlign
`channels * 2`, BitsPerSample 16, Subchunk2Size `dataSize`, where
`dataSize = 2 * sampleCount`. -/
theorem claim_C3_wav_header (l : List ℚ) (r c : ℕ)
    (hds : 36 + 2 * l.length < 2 ^ 32) (hr : r < 2 ^ 32)
    (hbr : r * (c * 2) < 2 ^ 32) (hc2 : c * 2 < 2 ^ 16) :
    (floatToWav l r c).length = 44 + 2 * l.length ∧
    (floatToWav l r c).take 4 = strBytes "RIFF" ∧
    ((floatToWav l r c).drop 8).take 4 = strBytes "WAVE" ∧
    ((floatToWav l r c).drop 12).take 4 = strBytes "fmt " ∧
    ((floatToWav l r c).drop 36).take 4 = strBytes "data" ∧
    decodeU32 (((floatToWav l r c).drop 4).take 4) = 36 + 2 * l.length ∧
    decodeU32 (((floatToWav l r c).drop 16).take 4) = 16 ∧
    decodeU16 (((floatToWav l r c).drop 20).take 2) = 1 ∧
    decodeU16 (((floatToWav l r c).drop 22).take 2) = c ∧
    decodeU32 (((floatToWav l r c).drop 24).take 4) = r ∧
    decodeU32 (((floatToWav l r c).drop 28).take 4) = r * (c * 2) ∧
    decodeU16 (((floatToWav l r c).drop 32).take 2) = c * 2 ∧
    decodeU16 (((floatToWav l r c).drop 34).take 2) = 16 ∧
    decodeU32 (((floatToWav l r c).drop 40).take 4) = 2 * l.length := by
  have e0 : (floatToWav l r c).drop 0 =
      strBytes "RIFF" ++ (u32le (36 + l.length * 2) ++ (strBytes "WAVE" ++ (strBytes "fmt " ++
        (u32le 16 ++ (u16le 1 ++ (u16le c ++ (u32le r ++ (u32le (r * (c * 2)) ++
        (u16le (c * 2) ++ (u16le (2 * 8) ++ (strBytes "data" ++ (u32le (l.length * 2) ++
        (l.map (fun s => i16le (floatToInt16 s))).flatten)))))))))))) := by
    rw [List.drop_zero]
    simp [floatToWav, List.append_assoc]
  obtain ⟨t0, e1⟩ := peel 0 4 e0 (by simp [strBytes_RIFF])
  obtain ⟨t1, e2⟩ := peel _ 4 e1 (length_u32le _)
  obtain ⟨t2, e3⟩ := peel _ 4 e2 (by simp [strBytes_WAVE])
  obtain ⟨t3, e4⟩ := peel _ 4 e3 (by simp [strBytes_fmt])
  obtain ⟨t4, e5⟩ := peel _ 4 e4 (length_u32le _)
  obtain ⟨t5, e6⟩ := peel _ 2 e5 (length_u16le _)
  obtain ⟨t6, e7⟩ := peel _ 2 e6 (length_u16le _)
  obtain ⟨t7, e8⟩ := peel _ 4 e7 (length_u32le _)
  obtain ⟨t8, e9⟩ := peel _ 4 e8 (length_u32le _)
  obtain ⟨t9, e10⟩ := peel _ 2 e9 (length_u16le _)
  obtain ⟨t10, e11⟩ := peel _ 2 e10 (length_u16le _)
  obtain ⟨t11, e12⟩ := peel _ 4 e11 (by simp [strBytes_data])
  obtain ⟨t12, _⟩ := peel _ 4 e12 (length_u32le _)
  refine ⟨length_floatToWav l r c, t0, t2, t3, t11, ?_, ?_, ?_, ?_, ?_, ?_, ?_, ?_, ?_⟩
  · exact (congrArg decodeU32 t1).trans ((decodeU32_u32le _ (by omega)).trans (by omega))
  · exact (congrArg decodeU32 t4).trans (decodeU32_u32le 16 (by norm_num))
  · exact (congrArg decodeU16 t5).trans (decodeU16_u16le 1 (by norm_num))
  · exact (congrArg decodeU16 t6).trans (decodeU16_u16le c (by omega))
  · exact (congrArg decodeU32 t7).trans (decodeU32_u32le r hr)
  · exact (congrArg decodeU32 t8).trans (decodeU32_u32le _ hbr)
  · exact (congrArg decodeU16 t9).trans (decodeU16_u16le _ hc2)
  · exact (congrArg decodeU16 t10).trans ((decodeU16_u16le (2 * 8) (by norm_num)).trans
      (by norm_num))
  · exact (congrArg decodeU32 t12).trans ((decodeU32_u32le _ (by omega)).trans (by omega))

theorem claim_C3_witness :
    (floatToWav [(0 : ℚ), 0] 44100 2).take 4 = strBytes "RIFF" ∧
    decodeU32 (((floatToWav [(0 : ℚ), 0] 44100 2).drop 4).take 4) = 36 + 2 * 2 :=
  ⟨(claim_C3_wav_header [(0 : ℚ), 0] 44100 2 (by norm_num) (by norm_num) (by norm_num)
      (by norm_num)).2.1,
    by
      have h := (claim_C3_wav_header [(0 : ℚ), 0] 44100 2 (by norm_num) (by norm_num)
        (by norm_num) (by norm_num)).2.2.2.2.2.1
      simpa using h⟩

/-- Inner loop of `buildWavWithSilence` for one channel:
`for (f = 0; f < src.length; f++) mix[(writeIndex + f) * channels + ch] = src[f]`
(the per-channel array of an `AudioBuffer` has `seg.length` entries). -/
def writeChannel (channels writeIndex len : ℕ) (src : ℕ → ℚ) (ch : ℕ) (mix : ℕ → ℚ) : ℕ → ℚ :=
  (List.range len).foldl
    (fun m f => Function.update m ((writeIndex + f) * channels + ch) (src f)) mix

/-- Channel loop of `buildWavWithSilence` for one segment; `getChannelData`
throws (here: `none`) when the segment has fewer channels than requested. -/
def writeSegment (channels writeIndex : ℕ) (seg : DecodedSegment) (mix : ℕ → ℚ) :
    Option (ℕ → ℚ) :=
  (List.range channels).foldlM
    (fun m ch => (getChannelData seg ch).map
      (fun src => writeChannel channels writeIndex seg.length src ch m)) mix

/-- The segment walk of `buildWavWithSilence`: copy each segment at the write
cursor, then advance by the segment length, plus the gap after every segment
except the last. -/
def mixLoop (channels gapFrames : ℕ) :
    List DecodedSegment → ℕ → (ℕ → ℚ) → Option (ℕ → ℚ)
  | [], _, mix => some mix
  | seg :: rest, writeIndex, mix =>
    match writeSegment channels writeIndex seg mix with
    | none => none
    | some m =>
      mixLoop channels gapFrames rest
        (writeIndex + seg.length + (if rest.isEmpty then 0 else gapFrames)) m

/-- The `totalFrames` value as computed by the `reduce` in `buildWavWithSilence`. -/
def totalFrames (decoded : List DecodedSegment) (gapFrames : ℕ) : ℕ :=
  decoded.enum.foldl
    (fun acc p => acc + p.2.length + (if p.1 < decoded.length - 1 then gapFrames else 0)) 0

/-- Model of `buildWavWithSilence` after its decode loop: empty check, gap-frame
computation, mixing into a zero-initialized buffer, and serialization.  The
thrown exceptions are modelled as `Except.error`.  (A negative gap would make
the buffer allocation throw in JavaScript; the `Int.toNat` clamp is only ever
used at `gapSeconds ≥ 0`, where it is exact.) -/
def buildWavFromDecoded (decoded : List DecodedSegment) (gapSeconds : ℚ) :
    Except String (List ℕ) :=
  match decoded with
  | [] => .error "Unable to decode any audio segments"
  | first :: _ =>
    match mixLoop first.numberOfChannels
        (jsRound ((first.sampleRate : ℚ) * gapSeconds)).toNat decoded 0 (fun _ => 0) with
    | none => .error "getChannelData: channel index out of range"
    | some mix =>
      .ok (floatToWav
        ((List.range (totalFrames decoded
            (jsRound ((first.sampleRate : ℚ) * gapSeconds)).toNat * first.numberOfChannels)).map
          mix)
        first.sampleRate first.numberOfChannels)

/-- Model of `buildWavWithSilence`: decode every buffer with the Web Audio decoder
(a parameter here), skipping failures, then assemble. -/
def buildWavWithSilence {α : Type} (decodeAudioData : α → Option DecodedSegment)
    (encodedBuffers : List α) (gapSeconds : ℚ) : Except String (List ℕ) :=
  buildWavFromDecoded (encodedBuffers.filterMap decodeAudioData) gapSeconds

/-- The write-cursor value at which segment `i` starts: all previous segment
lengths plus `i` gaps. -/
def relStart (gapFrames : ℕ) : List DecodedSegment → ℕ → ℕ
  | _, 0 => 0
  | [], _ + 1 => 0
  | seg :: rest, i + 1 => seg.length + gapFrames + relStart gapFrames rest i

theorem relStart_zero (gapFrames : ℕ) (l : List DecodedSegment) :
    relStart gapFrames l 0 = 0 := by
  cases l <;> rfl

theorem relStart_cons_succ (gapFrames : ℕ) (seg : DecodedSegment) (rest : List DecodedSegment)
    (i : ℕ) :
    relStart gapFrames (seg :: rest) (i + 1) =
      seg.length + gapFrames + relStart gapFrames rest i := rfl

theorem getChannelData_of_lt {seg : DecodedSegment} {ch : ℕ} (h : ch < seg.numberOfChannels) :
    getChannelData seg ch = some (seg.data ch) := by
  unfold getChannelData
  exact if_pos h

theorem getChannelData_of_ge {seg : DecodedSegment} {ch : ℕ} (h : seg.numberOfChannels ≤ ch) :
    getChannelData seg ch = none := by
  unfold getChannelData
  exact if_neg (by omega)

theorem foldl_update_of_not_mem {β : Type} (keys : ℕ → ℕ) (vals : ℕ → β) (l : List ℕ)
    (m : ℕ → β) (j : ℕ) (h : ∀ f ∈ l, keys f ≠ j) :
    l.foldl (fun m f => Function.update m (keys f) (vals f)) m j = m j := by
  induction l generalizing m with
  | nil => rfl
  | cons a t ih =>
    rw [List.foldl_cons, ih _ (fun f hf => h f (List.mem_cons_of_mem a hf))]
    exact Function.update_noteq (h a (List.mem_cons_self a t)).symm _ _

theorem foldl_update_range {β : Type} (keys : ℕ → ℕ) (vals : ℕ → β) (n : ℕ)
    (hinj : ∀ f g, f < n → g < n → keys f = keys g → f = g)
    (m : ℕ → β) (f0 : ℕ) (hf0 : f0 < n) :
    (List.range n).foldl (fun m f => Function.update m (keys f) (vals f)) m (keys f0) =
      vals f0 := by
  induction n generalizing m with
  | zero => omega
  | succ k ih =>
    rw [List.range_succ, List.foldl_append, List.foldl_cons, List.foldl_nil]
    by_cases hk : f0 = k
    · subst hk
      exact Function.update_same _ _ _
    · have hf0k : f0 < k := by omega
      rw [Function.update_noteq (fun hEq => hk (hinj f0 k (by omega) (by omega) hEq))]
      exact ih (fun f g hf hg => hinj f g (by omega) (by omega)) m hf0k

theorem writeChannel_at (channels wi len : ℕ) (src : ℕ → ℚ) (ch : ℕ)
    (hch : ch < channels) (m : ℕ → ℚ) (f : ℕ) (hf : f < len) :
    writeChannel channels wi len src ch m ((wi + f) * channels + ch) = src f := by
  unfold writeChannel
  apply foldl_update_range (fun f => (wi + f) * channels + ch) src len ?_ m f hf
  intro a b _ _ hEq
  have hEq' : (wi + a) * channels + ch = (wi + b) * channels + ch := hEq
  have h1 : (wi + a) * channels = (wi + b) * channels := by omega
  have h2 : wi + a = wi + b := Nat.eq_of_mul_eq_mul_right (by omega) h1
  omega

theorem writeChannel_outside (channels wi len : ℕ) (src : ℕ → ℚ) (ch : ℕ)
    (hch : ch < channels) (m : ℕ → ℚ) (j : ℕ)
    (hj : j < wi * channels ∨ (wi + len) * channels ≤ j) :
    writeChannel channels wi len src ch m j = m j := by
  unfold writeChannel
  apply foldl_update_of_not_mem
  intro f hf
  have hfl : f < len := List.mem_range.mp hf
  have h1 : wi * channels ≤ (wi + f) * channels :=
    Nat.mul_le_mul_right _ (by omega)
  have h2 : (wi + f + 1) * channels ≤ (wi + len) * channels :=
    Nat.mul_le_mul_right _ (by omega)
  have h3 : (wi + f + 1) * channels = (wi + f) * channels + channels := Nat.succ_mul _ _
  omega

theorem writeChannel_other (channels wi len : ℕ) (src : ℕ → ℚ) (ch ch0 : ℕ)
    (hch : ch < channels) (hch0 : ch0 < channels) (hne : ch ≠ ch0)
    (m : ℕ → ℚ) (wi0 f0 : ℕ) :
    writeChannel channels wi len src ch m ((wi0 + f0) * channels + ch0) =
      m ((wi0 + f0) * channels + ch0) := by
  unfold writeChannel
  apply foldl_update_of_not_mem
  intro f _ hEq
  have h : ((wi + f) * channels + ch) % channels = ((wi0 + f0) * channels + ch0) % channels :=
    congrArg (fun x => x % channels) hEq
  rw [Nat.add_comm ((wi + f) * channels) ch, Nat.add_comm ((wi0 + f0) * channels) ch0,
    Nat.add_mul_mod_self_right, Nat.add_mul_mod_self_right,
    Nat.mod_eq_of_lt hch, Nat.mod_eq_of_lt hch0] at h
  exact hne h

/-- The combined effect of one segment's channel loop when every requested
channel exists. -/
def segWrite (channels wi : ℕ) (seg : DecodedSegment) (m : ℕ → ℚ) : ℕ → ℚ :=
  (List.range channels).foldl
    (fun m ch => writeChannel channels wi seg.length (seg.data ch) ch m) m

theorem writeSegment_some (channels wi : ℕ) (seg : DecodedSegment)
    (hok : channels ≤ seg.numberOfChannels) (m : ℕ → ℚ) :
    writeSegment channels wi seg m = some (segWrite channels wi seg m) := by
  unfold writeSegment segWrite
  have key : ∀ l : List ℕ, (∀ ch ∈ l, ch < seg.numberOfChannels) → ∀ m : ℕ → ℚ,
      l.foldlM (fun m ch => (getChannelData seg ch).map
        (fun src => writeChannel channels wi seg.length src ch m)) m
      = some (l.foldl (fun m ch => writeChannel channels wi seg.length (seg.data ch) ch m) m) := by
    intro l
    induction l with
    | nil => intro _ m; rfl
    | cons a t ih =>
      intro h m
      rw [List.foldlM_cons, getChannelData_of_lt (h a (List.mem_cons_self a t))]
      simp only [Option.map_some', Option.some_bind, List.foldl_cons]
      exact ih (fun ch hch => h ch (List.mem_cons_of_mem a hch)) _
  exact key (List.range channels) (fun ch hch => lt_of_lt_of_le (List.mem_range.mp hch) hok) m

theorem writeSegment_none (channels wi : ℕ) (seg : DecodedSegment)
    (hbad : seg.numberOfChannels < channels) (m : ℕ → ℚ) :
    writeSegment channels wi seg m = none := by
  unfold writeSegment
  have key : ∀ l : List ℕ, (∃ ch ∈ l, seg.numberOfChannels ≤ ch) → ∀ m : ℕ → ℚ,
      l.foldlM (fun m ch => (getChannelData seg ch).map
        (fun src => writeChannel channels wi seg.length src ch m)) m = none := by
    intro l
    induction l with
    | nil =>
      rintro ⟨ch, hch, -⟩ m
      simp at hch
    | cons a t ih =>
      rintro ⟨ch, hch, hge⟩ m
      rw [List.foldlM_cons]
      by_cases hA : a < seg.numberOfChannels
      · rw [getChannelData_of_lt hA]
        simp only [Option.map_some', Option.some_bind]
        apply ih
        refine ⟨ch, ?_, hge⟩
        rcases List.mem_cons.mp hch with h | h
        · exfalso
          subst h
          omega
        · exact h
      · rw [getChannelData_of_ge (by omega)]
        rfl
  exact key _ ⟨seg.numberOfChannels, List.mem_range.mpr hbad, le_refl _⟩ m

theorem segWrite_outside (channels wi : ℕ) (seg : DecodedSegment) (m : ℕ → ℚ) (j : ℕ)
    (hj : j < wi * channels ∨ (wi + seg.length) * channels ≤ j) :
    segWrite channels wi seg m j = m j := by
  unfold segWrite
  have key : ∀ l : List ℕ, (∀ x ∈ l, x < channels) → ∀ m : ℕ → ℚ,
      l.foldl (fun m ch => writeChannel channels wi seg.length (seg.data ch) ch m) m j
        = m j := by
    intro l
    induction l with
    | nil => intro _ _; rfl
    | cons a t ih =>
      intro h m
      rw [List.foldl_cons, ih (fun x hx => h x (List.mem_cons_of_mem a hx))]
      exact writeChannel_outside channels wi seg.length (seg.data a) a
        (h a (List.mem_cons_self a t)) m j hj
  exact key _ (fun x hx => List.mem_range.mp hx) m

theorem segWrite_at (channels wi : ℕ) (seg : DecodedSegment) (m : ℕ → ℚ)
    (f ch : ℕ) (hf : f < seg.length) (hch : ch < channels) :
    segWrite channels wi seg m ((wi + f) * channels + ch) = seg.data ch f := by
  unfold segWrite
  have key2 : ∀ l2 : List ℕ, (∀ x ∈ l2, x < channels ∧ x ≠ ch) → ∀ m0 : ℕ → ℚ,
      l2.foldl (fun m c => writeChannel channels wi seg.length (seg.data c) c m) m0
        ((wi + f) * channels + ch) = m0 ((wi + f) * channels + ch) := by
    intro l2
    induction l2 with
    | nil => intro _ _; rfl
    | cons b u ih2 =>
      intro h2 m0
      rw [List.foldl_cons, ih2 (fun x hx => h2 x (List.mem_cons_of_mem b hx))]
      exact writeChannel_other channels wi seg.length (seg.data b) b ch
        (h2 b (List.mem_cons_self b u)).1 hch (h2 b (List.mem_cons_self b u)).2 m0 wi f
  have key : ∀ l : List ℕ, (∀ x ∈ l, x < channels) → ch ∈ l → ∀ m : ℕ → ℚ,
      l.foldl (fun m c => writeChannel channels wi seg.length (seg.data c) c m) m
        ((wi + f) * channels + ch) = seg.data ch f := by
    intro l
    induction l with
    | nil =>
      intro _ hmem _
      simp at hmem
    | cons a t ih =>
      intro hsub hmem m
      rw [List.foldl_cons]
      by_cases hmt : ch ∈ t
      · exact ih (fun x hx => hsub x (List.mem_cons_of_mem a hx)) hmt _
      · have ha : a = ch := by
          rcases List.mem_cons.mp hmem with h | h
          · exact h.symm
          · exact absurd h hmt
        subst ha
        rw [key2 t (fun x hx => ⟨hsub x (List.mem_cons_of_mem a hx),
          fun hxc => hmt (hxc ▸ hx)⟩)]
        exact writeChannel_at channels wi seg.length (seg.data a) a hch m f hf
  exact key (List.range channels) (fun x hx => List.mem_range.mp hx)
    (List.mem_range.mpr hch) m

theorem mixLoop_cons (channels gap : ℕ) (seg : DecodedSegment) (rest : List DecodedSegment)
    (wi : ℕ) (m : ℕ → ℚ) :
    mixLoop channels gap (seg :: rest) wi m =
      match writeSegment channels wi seg m with
      | none => none
      | some m1 => mixLoop channels gap rest (wi + seg.length + gap) m1 := by
  cases rest with
  | nil =>
    unfold mixLoop
    cases writeSegment channels wi seg m <;> rfl
  | cons b r =>
    unfold mixLoop
    rfl

theorem relStart_succ (gap : ℕ) (l : List DecodedSegment) (i : ℕ) (hi : i < l.length) :
    relStart gap l (i + 1) = relStart gap l i + (l.get ⟨i, hi⟩).length + gap := by
  induction l generalizing i with
  | nil => simp at hi
  | cons seg rest ih =>
    cases i with
    | zero =>
      rw [relStart_cons_succ, relStart_zero, relStart_zero]
      have : (seg :: rest).get ⟨0, hi⟩ = seg := rfl
      rw [this]
      omega
    | succ i' =>
      have hi' : i' < rest.length := by
        simp only [List.length_cons] at hi
        omega
      rw [relStart_cons_succ, relStart_cons_succ, ih i' hi']
      have : (seg :: rest).get ⟨i' + 1, hi⟩ = rest.get ⟨i', hi'⟩ := rfl
      rw [this]
      omega

theorem relStart_mono (gap : ℕ) (l : List DecodedSegment) (a b : ℕ) (hab : a ≤ b)
    (hb : b ≤ l.length) : relStart gap l a ≤ relStart gap l b := by
  induction b with
  | zero =>
    have : a = 0 := by omega
    subst this
    exact le_refl _
  | succ m ih =>
    rcases Nat.lt_or_ge a (m + 1) with h | h
    · have ham : a ≤ m := by omega
      have hm : m < l.length := by omega
      calc relStart gap l a ≤ relStart gap l m := ih ham (by omega)
        _ ≤ relStart gap l (m + 1) := by
            rw [relStart_succ gap l m hm]
            omega
    · have : a = m + 1 := by omega
      subst this
      exact le_refl _

theorem relStart_len_le (gap : ℕ) (l : List DecodedSegment) (k i : ℕ) (hki : k ≤ i)
    (hk : k < l.length) (hi : i < l.length) :
    relStart gap l k + (l.get ⟨k, hk⟩).length ≤ relStart gap l i + (l.get ⟨i, hi⟩).length := by
  induction hki with
  | refl => exact le_refl _
  | @step m hm ihm =>
    have hm' : m < l.length := by omega
    have h1 := ihm hm'
    rw [relStart_succ gap l m hm']
    omega

theorem relStart_gap_le (gap : ℕ) (l : List DecodedSegment) (i k : ℕ) (hik : i < k)
    (hi : i < l.length) (hk : k ≤ l.length) :
    relStart gap l i + (l.get ⟨i, hi⟩).length + gap ≤ relStart gap l k := by
  have h1 : relStart gap l (i + 1) = relStart gap l i + (l.get ⟨i, hi⟩).length + gap :=
    relStart_succ gap l i hi
  have h2 : relStart gap l (i + 1) ≤ relStart gap l k := relStart_mono gap l (i + 1) k hik hk
  omega

theorem mixLoop_spec (channels gap : ℕ) (l : List DecodedSegment)
    (hch : ∀ seg ∈ l, channels ≤ seg.numberOfChannels) :
    ∀ (wi : ℕ) (m : ℕ → ℚ),
    ∃ M, mixLoop channels gap l wi m = some M ∧
      (∀ i (hi : i < l.length) (f : ℕ), f < (l.get ⟨i, hi⟩).length →
        ∀ ch, ch < channels →
        M ((wi + relStart gap l i + f) * channels + ch) = (l.get ⟨i, hi⟩).data ch f) ∧
      (∀ j, (∀ i (hi : i < l.length),
          j < (wi + relStart gap l i) * channels ∨
          (wi + relStart gap l i + (l.get ⟨i, hi⟩).length) * channels ≤ j) →
        M j = m j) := by
  revert hch
  induction l with
  | nil =>
    intro _ wi m
    exact ⟨m, rfl, fun i hi => absurd hi (by simp), fun j _ => rfl⟩
  | cons seg rest ih =>
    intro hch wi m
    have hseg : channels ≤ seg.numberOfChannels := hch seg (List.mem_cons_self seg rest)
    obtain ⟨M, hM, hA, hP⟩ := ih (fun s hs => hch s (List.mem_cons_of_mem seg hs))
      (wi + seg.length + gap) (segWrite channels wi seg m)
    refine ⟨M, ?_, ?_, ?_⟩
    · rw [mixLoop_cons, writeSegment_some channels wi seg hseg m]
      exact hM
    · intro i hi f hf ch hchlt
      cases i with
      | zero =>
        have hf' : f < seg.length := hf
        have hidx : (wi + relStart gap (seg :: rest) 0 + f) * channels + ch
            = (wi + f) * channels + ch := by
          rw [relStart_zero, Nat.add_zero]
        rw [hidx]
        have havoid : ∀ i' (hi' : i' < rest.length),
            (wi + f) * channels + ch <
              (wi + seg.length + gap + relStart gap rest i') * channels ∨
            (wi + seg.length + gap + relStart gap rest i' +
              (rest.get ⟨i', hi'⟩).length) * channels ≤ (wi + f) * channels + ch := by
          intro i' hi'
          left
          have h1 : (wi + f + 1) * channels ≤
              (wi + seg.length + gap + relStart gap rest i') * channels :=
            Nat.mul_le_mul_right _ (by omega)
          have h2 : (wi + f + 1) * channels = (wi + f) * channels + channels :=
            Nat.succ_mul _ _
          omega
        rw [hP ((wi + f) * channels + ch) havoid]
        exact segWrite_at channels wi seg m f ch hf' hchlt
      | succ i' =>
        have hi' : i' < rest.length := by
          simp only [List.length_cons] at hi
          omega
        have hf' : f < (rest.get ⟨i', hi'⟩).length := hf
        have hidx : (wi + relStart gap (seg :: rest) (i' + 1) + f) * channels + ch
            = (wi + seg.length + gap + relStart gap rest i' + f) * channels + ch := by
          rw [relStart_cons_succ]
          ring
        rw [hidx]
        exact hA i' hi' f hf' ch hchlt
    · intro j hj
      have hjrest : ∀ i' (hi' : i' < rest.length),
          j < (wi + seg.length + gap + relStart gap rest i') * channels ∨
          (wi + seg.length + gap + relStart gap rest i' +
            (rest.get ⟨i', hi'⟩).length) * channels ≤ j := by
        intro i' hi'
        have h := hj (i' + 1) (by simp only [List.length_cons]; omega)
        rw [relStart_cons_succ] at h
        have e1 : wi + (seg.length + gap + relStart gap rest i')
            = wi + seg.length + gap + relStart gap rest i' := by ring
        rw [e1] at h
        exact h
      rw [hP j hjrest]
      have h0 := hj 0 (by simp)
      rw [relStart_zero] at h0
      apply segWrite_outside
      simpa using h0

theorem totalFrames_foldl (m gap : ℕ) (l : List (ℕ × DecodedSegment)) (a : ℕ) :
    l.foldl (fun acc p => acc + p.2.length + (if p.1 < m then gap else 0)) a
      = a + (l.map (fun p => p.2.length)).sum
        + (l.map (fun p => if p.1 < m then gap else 0)).sum := by
  induction l generalizing a with
  | nil => simp
  | cons x t ih =>
    rw [List.foldl_cons, ih, List.map_cons, List.sum_cons, List.map_cons, List.sum_cons]
    ring

theorem sum_range_ite_lt (n m gap : ℕ) :
    ((List.range n).map (fun i => if i < m then gap else 0)).sum = gap * min n m := by
  induction n with
  | zero => simp
  | succ k ih =>
    rw [List.range_succ, List.map_append, List.sum_append, ih]
    simp only [List.map_cons, List.map_nil, List.sum_cons, List.sum_nil]
    by_cases h : k < m
    · rw [if_pos h, show min (k + 1) m = min k m + 1 from by omega]
      ring
    · rw [if_neg h, show min (k + 1) m = min k m from by omega]
      simp

theorem totalFrames_eq (decoded : List DecodedSegment) (gap : ℕ) :
    totalFrames decoded gap
      = (decoded.map (fun s => s.length)).sum + gap * (decoded.length - 1) := by
  unfold totalFrames
  rw [totalFrames_foldl]
  have h1 : (decoded.enum.map (fun p : ℕ × DecodedSegment => p.2.length)).sum
      = (decoded.map (fun s => s.length)).sum := by
    have e : decoded.enum.map (fun p : ℕ × DecodedSegment => p.2.length)
        = (decoded.enum.map Prod.snd).map (fun s => s.length) := by
      rw [List.map_map]
      rfl
    rw [e, List.enum_map_snd]
  have h2 : (decoded.enum.map
        (fun p : ℕ × DecodedSegment => if p.1 < decoded.length - 1 then gap else 0)).sum
      = gap * (decoded.length - 1) := by
    have e : decoded.enum.map
          (fun p : ℕ × DecodedSegment => if p.1 < decoded.length - 1 then gap else 0)
        = (decoded.enum.map Prod.fst).map
            (fun i => if i < decoded.length - 1 then gap else 0) := by
      rw [List.map_map]
      rfl
    rw [e, List.enum_map_fst, sum_range_ite_lt]
    congr 1
    omega
  rw [h1, h2]
  omega

theorem jsRound_nonneg (q : ℚ) (h : 0 ≤ q) : 0 ≤ jsRound q :=
  Int.le_floor.mpr (by push_cast; linarith)

theorem mixLoop_none (channels gap : ℕ) (l : List DecodedSegment)
    (hbad : ∃ seg ∈ l, seg.numberOfChannels < channels) :
    ∀ (wi : ℕ) (m : ℕ → ℚ), mixLoop channels gap l wi m = none := by
  revert hbad
  induction l with
  | nil =>
    rintro ⟨s, hs, -⟩
    simp at hs
  | cons seg rest ih =>
    rintro ⟨s, hs, hlt⟩ wi m
    rw [mixLoop_cons]
    by_cases hA : seg.numberOfChannels < channels
    · rw [writeSegment_none channels wi seg hA m]
    · have hok : channels ≤ seg.numberOfChannels := by omega
      rw [writeSegment_some channels wi seg hok m]
      have hbad' : ∃ s ∈ rest, s.numberOfChannels < channels := by
        rcases List.mem_cons.mp hs with h | h
        · exfalso
          subst h
          omega
        · exact ⟨s, h, hlt⟩
      exact ih hbad' _ _

theorem buildWavFromDecoded_cons (first : DecodedSegment) (rest : List DecodedSegment)
    (g : ℚ) :
    buildWavFromDecoded (first :: rest) g =
      match mixLoop first.numberOfChannels (jsRound ((first.sampleRate : ℚ) * g)).toNat
          (first :: rest) 0 (fun _ => 0) with
      | none => .error "getChannelData: channel index out of range"
      | some mix =>
        .ok (floatToWav ((List.range (totalFrames (first :: rest)
            (jsRound ((first.sampleRate : ℚ) * g)).toNat * first.numberOfChannels)).map mix)
          first.sampleRate first.numberOfChannels) := rfl

theorem buildWavFromDecoded_ok (first : DecodedSegment) (rest : List DecodedSegment) (g : ℚ)
    (hch : ∀ seg ∈ first :: rest, first.numberOfChannels ≤ seg.numberOfChannels) :
    ∃ w, buildWavFromDecoded (first :: rest) g = .ok w ∧
      w.length = 44 + 2 * (totalFrames (first :: rest)
        (jsRound ((first.sampleRate : ℚ) * g)).toNat * first.numberOfChannels) := by
  obtain ⟨M, hM, -, -⟩ := mixLoop_spec first.numberOfChannels
    ((jsRound ((first.sampleRate : ℚ) * g)).toNat) (first :: rest) hch 0 (fun _ => 0)
  refine ⟨floatToWav ((List.range (totalFrames (first :: rest)
      (jsRound ((first.sampleRate : ℚ) * g)).toNat * first.numberOfChannels)).map M)
      first.sampleRate first.numberOfChannels, ?_, ?_⟩
  · rw [buildWavFromDecoded_cons, hM]
  · rw [length_floatToWav, List.length_map, List.length_range]

/-- Claim C1: for a non-empty decoded list, the lossless mix succeeds (under
the homogeneity assumption on channel counts) and the output's total frame
count is `sum fi + round(r * g) * (N - 1)` with `r` the first segment's
sample rate — visible in the byte length `44 + 2 * frames * channels`; for
`N = 1` no gap frames are added.  `round(r*g) = (jsRound (r*g)).toNat` since
`g ≥ 0`. -/
theorem claim_C1_total_frame_count (first : DecodedSegment) (rest : List DecodedSegment)
    (g : ℚ) (hg : 0 ≤ g)
    (hch : ∀ seg ∈ first :: rest, first.numberOfChannels ≤ seg.numberOfChannels) :
    ∃ w, buildWavFromDecoded (first :: rest) g = .ok w ∧
      w.length = 44 + 2 * (((first :: rest).map (fun s => s.length)).sum
        + (jsRound ((first.sampleRate : ℚ) * g)).toNat * ((first :: rest).length - 1))
        * first.numberOfChannels ∧
      ((jsRound ((first.sampleRate : ℚ) * g)).toNat : ℤ)
        = jsRound ((first.sampleRate : ℚ) * g) ∧
      (rest = [] → w.length = 44 + 2 * first.length * first.numberOfChannels) := by
  obtain ⟨w, hw, hlen⟩ := buildWavFromDecoded_ok first rest g hch
  have htn : ((jsRound ((first.sampleRate : ℚ) * g)).toNat : ℤ)
      = jsRound ((first.sampleRate : ℚ) * g) :=
    Int.toNat_of_nonneg (jsRound_nonneg _ (by positivity))
  refine ⟨w, hw, ?_, htn, ?_⟩
  · rw [hlen, totalFrames_eq]
    ring
  · intro hrest
    subst hrest
    rw [hlen, totalFrames_eq]
    simp only [List.map_cons, List.map_nil, List.sum_cons, List.sum_nil, List.length_cons,
      List.length_nil]
    ring_nf

theorem claim_C1_witness :
    ∃ w, buildWavFromDecoded
        [⟨44100, 1, 3, fun _ _ => 0⟩, ⟨44100, 1, 2, fun _ _ => 0⟩] ((1 : ℚ) / 2) = .ok w ∧
      w.length = 44 + 2 * (([(⟨44100, 1, 3, fun _ _ => 0⟩ : DecodedSegment),
          ⟨44100, 1, 2, fun _ _ => 0⟩].map (fun s => s.length)).sum
        + (jsRound (((44100 : ℕ) : ℚ) * ((1 : ℚ) / 2))).toNat
          * (([(⟨44100, 1, 3, fun _ _ => 0⟩ : DecodedSegment),
              ⟨44100, 1, 2, fun _ _ => 0⟩]).length - 1)) * 1 ∧
      ((jsRound (((44100 : ℕ) : ℚ) * ((1 : ℚ) / 2))).toNat : ℤ)
        = jsRound (((44100 : ℕ) : ℚ) * ((1 : ℚ) / 2)) ∧
      ([(⟨44100, 1, 2, fun _ _ => 0⟩ : DecodedSegment)] = ([] : List DecodedSegment) →
        w.length = 44 + 2 * 3 * 1) :=
  claim_C1_total_frame_count ⟨44100, 1, 3, fun _ _ => 0⟩ [⟨44100, 1, 2, fun _ _ => 0⟩]
    ((1 : ℚ) / 2) (by norm_num)
    (by
      intro seg hseg
      rcases List.mem_cons.mp hseg with h | h
      · rw [h]
      · rcases List.mem_cons.mp h with h2 | h2
        · rw [h2]
        · simp at h2)

/-- Claim C2: in the mixed interleaved buffer (built from a zero-initialized
allocation), every sample belonging to segment `i`'s region equals that
segment's sample for the corresponding frame and channel, and every sample in
an inserted gap region (the `gapFrames` frames after each segment except the
last) equals exactly 0. -/
theorem claim_C2_mix_content (first : DecodedSegment) (rest : List DecodedSegment) (g : ℚ)
    (hg : 0 ≤ g)
    (hch : ∀ seg ∈ first :: rest, first.numberOfChannels ≤ seg.numberOfChannels) :
    ∃ M, mixLoop first.numberOfChannels (jsRound ((first.sampleRate : ℚ) * g)).toNat
        (first :: rest) 0 (fun _ => 0) = some M ∧
      (∀ i (hi : i < (first :: rest).length) (f : ℕ),
        f < ((first :: rest).get ⟨i, hi⟩).length →
        ∀ ch, ch < first.numberOfChannels →
        M ((relStart (jsRound ((first.sampleRate : ℚ) * g)).toNat (first :: rest) i + f)
            * first.numberOfChannels + ch)
          = ((first :: rest).get ⟨i, hi⟩).data ch f) ∧
      (∀ i (hi : i < (first :: rest).length) (f : ℕ),
        i + 1 < (first :: rest).length →
        f < (jsRound ((first.sampleRate : ℚ) * g)).toNat →
        ∀ ch, ch < first.numberOfChannels →
        M ((relStart (jsRound ((first.sampleRate : ℚ) * g)).toNat (first :: rest) i
            + ((first :: rest).get ⟨i, hi⟩).length + f) * first.numberOfChannels + ch)
          = 0) := by
  obtain ⟨M, hM, hA, hP⟩ := mixLoop_spec first.numberOfChannels
    ((jsRound ((first.sampleRate : ℚ) * g)).toNat) (first :: rest) hch 0 (fun _ => 0)
  refine ⟨M, hM, ?_, ?_⟩
  · intro i hi f hf ch hchlt
    have h := hA i hi f hf ch hchlt
    rw [Nat.zero_add] at h
    exact h
  · intro i hi f hi1 hfgf ch hchlt
    have havoid : ∀ k (hk : k < (first :: rest).length),
        (relStart (jsRound ((first.sampleRate : ℚ) * g)).toNat (first :: rest) i
            + ((first :: rest).get ⟨i, hi⟩).length + f) * first.numberOfChannels + ch
          < (0 + relStart (jsRound ((first.sampleRate : ℚ) * g)).toNat (first :: rest) k)
              * first.numberOfChannels ∨
        (0 + relStart (jsRound ((first.sampleRate : ℚ) * g)).toNat (first :: rest) k
            + ((first :: rest).get ⟨k, hk⟩).length) * first.numberOfChannels
          ≤ (relStart (jsRound ((first.sampleRate : ℚ) * g)).toNat (first :: rest) i
            + ((first :: rest).get ⟨i, hi⟩).length + f) * first.numberOfChannels + ch := by
      intro k hk
      simp only [Nat.zero_add]
      rcases Nat.lt_or_ge i k with hik | hki
      · left
        have hstep := relStart_gap_le (jsRound ((first.sampleRate : ℚ) * g)).toNat
          (first :: rest) i k hik hi (le_of_lt hk)
        have h1 : (relStart (jsRound ((first.sampleRate : ℚ) * g)).toNat (first :: rest) i
              + ((first :: rest).get ⟨i, hi⟩).length + f + 1) * first.numberOfChannels
            ≤ relStart (jsRound ((first.sampleRate : ℚ) * g)).toNat (first :: rest) k
              * first.numberOfChannels :=
          Nat.mul_le_mul_right _ (by omega)
        have h2 : (relStart (jsRound ((first.sampleRate : ℚ) * g)).toNat (first :: rest) i
              + ((first :: rest).get ⟨i, hi⟩).length + f + 1) * first.numberOfChannels
            = (relStart (jsRound ((first.sampleRate : ℚ) * g)).toNat (first :: rest) i
              + ((first :: rest).get ⟨i, hi⟩).length + f) * first.numberOfChannels
              + first.numberOfChannels := Nat.succ_mul _ _
        omega
      · right
        have h1 : (relStart (jsRound ((first.sampleRate : ℚ) * g)).toNat (first :: rest) k
              + ((first :: rest).get ⟨k, hk⟩).length) * first.numberOfChannels
            ≤ (relStart (jsRound ((first.sampleRate : ℚ) * g)).toNat (first :: rest) i
              + ((first :: rest).get ⟨i, hi⟩).length) * first.numberOfChannels :=
          Nat.mul_le_mul_right _
            (relStart_len_le (jsRound ((first.sampleRate : ℚ) * g)).toNat
              (first :: rest) k i hki hk hi)
        have h2 : (relStart (jsRound ((first.sampleRate : ℚ) * g)).toNat (first :: rest) i
              + ((first :: rest).get ⟨i, hi⟩).length) * first.numberOfChannels
            ≤ (relStart (jsRound ((first.sampleRate : ℚ) * g)).toNat (first :: rest) i
              + ((first :: rest).get ⟨i, hi⟩).length + f) * first.numberOfChannels :=
          Nat.mul_le_mul_right _ (by omega)
        omega
    exact hP _ havoid

theorem claim_C2_witness :
    ∃ M, mixLoop 1 (jsRound (((4 : ℕ) : ℚ) * ((1 : ℚ) / 2))).toNat
        [⟨4, 1, 2, fun _ f => (f : ℚ) + 1⟩, ⟨4, 1, 1, fun _ _ => 5⟩] 0 (fun _ => 0)
        = some M ∧ M 0 = 1 ∧ M 2 = 0 := by
  obtain ⟨M, hM, hA, hGap⟩ := claim_C2_mix_content ⟨4, 1, 2, fun _ f => (f : ℚ) + 1⟩
    [⟨4, 1, 1, fun _ _ => 5⟩] ((1 : ℚ) / 2) (by norm_num)
    (by
      intro seg hseg
      rcases List.mem_cons.mp hseg with h | h
      · rw [h]
      · rcases List.mem_cons.mp h with h2 | h2
        · rw [h2]
        · simp at h2)
  refine ⟨M, hM, ?_, ?_⟩
  · have h := hA 0 (by simp) 0 (by simp) 0 (by norm_num)
    rw [relStart_zero] at h
    simpa using h
  · have hgf : 0 < (jsRound (((4 : ℕ) : ℚ) * ((1 : ℚ) / 2))).toNat := by
      have : ((4 : ℕ) : ℚ) * ((1 : ℚ) / 2) = 2 := by norm_num
      rw [jsRound, this]
      norm_num
    have h := hGap 0 (by simp) 0 (by simp) hgf 0 (by norm_num)
    rw [relStart_zero] at h
    simpa using h

/-- Two decoded segments that are indistinguishable to a mixer that reads
only the first `c` channels: equal metadata, and equal samples below `c`
(data in channels `≥ c` may differ arbitrarily). -/
def AgreeBelow (c : ℕ) (s t : DecodedSegment) : Prop :=
  s.sampleRate = t.sampleRate ∧ s.numberOfChannels = t.numberOfChannels ∧
  s.length = t.length ∧ ∀ ch, ch < c → ∀ f, s.data ch f = t.data ch f

theorem writeChannel_congr (channels wi len : ℕ) (src src' : ℕ → ℚ) (ch : ℕ)
    (h : ∀ f, src f = src' f) (m : ℕ → ℚ) :
    writeChannel channels wi len src ch m = writeChannel channels wi len src' ch m := by
  unfold writeChannel
  congr 1
  funext m0 f
  rw [h f]

theorem segWrite_congr (channels wi : ℕ) (s t : DecodedSegment)
    (hlen : s.length = t.length)
    (hdata : ∀ ch, ch < channels → ∀ f, s.data ch f = t.data ch f) (m : ℕ → ℚ) :
    segWrite channels wi s m = segWrite channels wi t m := by
  unfold segWrite
  have key : ∀ l : List ℕ, (∀ x ∈ l, x < channels) → ∀ m : ℕ → ℚ,
      l.foldl (fun m ch => writeChannel channels wi s.length (s.data ch) ch m) m
        = l.foldl (fun m ch => writeChannel channels wi t.length (t.data ch) ch m) m := by
    intro l
    induction l with
    | nil => intro _ _; rfl
    | cons a u ih =>
      intro h m
      rw [List.foldl_cons, List.foldl_cons]
      have hhead : writeChannel channels wi s.length (s.data a) a m
          = writeChannel channels wi t.length (t.data a) a m := by
        rw [writeChannel_congr channels wi s.length (s.data a) (t.data a) a
          (hdata a (h a (List.mem_cons_self a u))) m, hlen]
      rw [hhead]
      exact ih (fun x hx => h x (List.mem_cons_of_mem a hx)) _
  exact key _ (fun x hx => List.mem_range.mp hx) m

theorem mixLoop_congr (channels gap : ℕ) (l l' : List DecodedSegment)
    (hrel : List.Forall₂ (AgreeBelow channels) l l') :
    ∀ (wi : ℕ) (m : ℕ → ℚ),
    mixLoop channels gap l wi m = mixLoop channels gap l' wi m := by
  induction hrel with
  | nil => intro wi m; rfl
  | @cons s t l2 l2' hst hrest ih =>
    intro wi m
    rw [mixLoop_cons, mixLoop_cons]
    obtain ⟨hsr, hnc, hlen, hdata⟩ := hst
    by_cases hok : channels ≤ s.numberOfChannels
    · rw [writeSegment_some channels wi s hok m, writeSegment_some channels wi t (by omega) m]
      simp only []
      rw [segWrite_congr channels wi s t hlen hdata m, hlen]
      exact ih _ _
    · rw [writeSegment_none channels wi s (by omega) m,
        writeSegment_none channels wi t (by omega) m]

theorem forall2_map_length (c : ℕ) {l l' : List DecodedSegment}
    (h : List.Forall₂ (AgreeBelow c) l l') :
    l.map (fun s => s.length) = l'.map (fun s => s.length) := by
  induction h with
  | nil => rfl
  | cons hst hrest ih => simp only [List.map_cons, ih, hst.2.2.1]

/-- Claim C10: the mixer reads exactly the first segment's channel count from
every segment: if every segment has at least that many channels the job
succeeds, and data in any further channels cannot influence the output
(extra channels are silently dropped); if some segment has fewer channels,
`getChannelData` throws and the whole job fails (the segment is not skipped). -/
theorem claim_C10_channel_behavior (first : DecodedSegment) (rest : List DecodedSegment)
    (g : ℚ) :
    ((∀ seg ∈ first :: rest, first.numberOfChannels ≤ seg.numberOfChannels) →
      ∃ w, buildWavFromDecoded (first :: rest) g = .ok w) ∧
    ((∃ seg ∈ first :: rest, seg.numberOfChannels < first.numberOfChannels) →
      buildWavFromDecoded (first :: rest) g
        = .error "getChannelData: channel index out of range") ∧
    (∀ rest', List.Forall₂ (AgreeBelow first.numberOfChannels) rest rest' →
      buildWavFromDecoded (first :: rest) g = buildWavFromDecoded (first :: rest') g) := by
  refine ⟨?_, ?_, ?_⟩
  · intro hch
    obtain ⟨w, hw, -⟩ := buildWavFromDecoded_ok first rest g hch
    exact ⟨w, hw⟩
  · intro hbad
    rw [buildWavFromDecoded_cons, mixLoop_none _ _ _ hbad _ _]
  · intro rest' hrel
    have hrel2 : List.Forall₂ (AgreeBelow first.numberOfChannels)
        (first :: rest) (first :: rest') :=
      List.Forall₂.cons ⟨rfl, rfl, rfl, fun _ _ _ => rfl⟩ hrel
    have hmix := mixLoop_congr first.numberOfChannels
      ((jsRound ((first.sampleRate : ℚ) * g)).toNat) (first :: rest) (first :: rest')
      hrel2 0 (fun _ => 0)
    have htf : totalFrames (first :: rest) (jsRound ((first.sampleRate : ℚ) * g)).toNat
        = totalFrames (first :: rest') (jsRound ((first.sampleRate : ℚ) * g)).toNat := by
      rw [totalFrames_eq, totalFrames_eq, forall2_map_length _ hrel2, hrel2.length_eq]
    rw [buildWavFromDecoded_cons first rest g, buildWavFromDecoded_cons first rest' g,
      hmix, htf]

theorem claim_C10_witness :
    (∃ w, buildWavFromDecoded
        [⟨8, 1, 1, fun _ _ => 0⟩, ⟨8, 2, 1, fun _ _ => 0⟩] 0 = .ok w) ∧
    buildWavFromDecoded [⟨8, 2, 1, fun _ _ => 0⟩, ⟨8, 1, 1, fun _ _ => 0⟩] 0
      = .error "getChannelData: channel index out of range" := by
  constructor
  · refine (claim_C10_channel_behavior ⟨8, 1, 1, fun _ _ => 0⟩
      [⟨8, 2, 1, fun _ _ => 0⟩] 0).1 ?_
    intro seg hseg
    rcases List.mem_cons.mp hseg with h | h
    · rw [h]
    · rcases List.mem_cons.mp h with h2 | h2
      · rw [h2]
        norm_num
      · simp at h2
  · exact (claim_C10_channel_behavior ⟨8, 2, 1, fun _ _ => 0⟩
      [⟨8, 1, 1, fun _ _ => 0⟩] 0).2.1
      ⟨⟨8, 1, 1, fun _ _ => 0⟩, List.mem_cons_of_mem _ (List.mem_cons_self _ _), by norm_num⟩

/-- Claim C5: per-segment decode failures are skipped (the decode loop keeps
only successfully decoded segments, in order); if at least one segment
decodes (and channel counts are consistent enough for the mixer), assembly
succeeds on the surviving segments; if zero segments decode, the job fails
with the job-level error and no output buffer is produced. -/
theorem claim_C5_decode_tolerance {α : Type} (decodeAudioData : α → Option DecodedSegment)
    (encodedBuffers : List α) (g : ℚ) :
    (∀ (first : DecodedSegment) (rest : List DecodedSegment),
      encodedBuffers.filterMap decodeAudioData = first :: rest →
      (∀ seg ∈ first :: rest, first.numberOfChannels ≤ seg.numberOfChannels) →
      ∃ w, buildWavWithSilence decodeAudioData encodedBuffers g = .ok w ∧
        buildWavWithSilence decodeAudioData encodedBuffers g
          = buildWavFromDecoded (first :: rest) g) ∧
    (encodedBuffers.filterMap decodeAudioData = [] →
      buildWavWithSilence decodeAudioData encodedBuffers g
        = .error "Unable to decode any audio segments") := by
  constructor
  · intro first rest hfm hch
    obtain ⟨w, hw, -⟩ := buildWavFromDecoded_ok first rest g hch
    refine ⟨w, ?_, ?_⟩
    · unfold buildWavWithSilence
      rw [hfm, hw]
    · unfold buildWavWithSilence
      rw [hfm]
  · intro hfm
    unfold buildWavWithSilence
    rw [hfm]
    rfl

theorem claim_C5_witness :
    (∃ w, buildWavWithSilence
        (fun n : ℕ => if n = 0 then none else some ⟨8, 1, 1, fun _ _ => 0⟩)
        [0, 1] 0 = .ok w) ∧
    buildWavWithSilence
        (fun n : ℕ => if n = 0 then none else some ⟨8, 1, 1, fun _ _ => 0⟩)
        [0, 0] 0
      = .error "Unable to decode any audio segments" := by
  constructor
  · obtain ⟨w, hw, -⟩ := (claim_C5_decode_tolerance
        (fun n : ℕ => if n = 0 then none else some ⟨8, 1, 1, fun _ _ => 0⟩) [0, 1] 0).1
      ⟨8, 1, 1, fun _ _ => 0⟩ [] rfl
      (by
        intro seg hseg
        rcases List.mem_cons.mp hseg with h | h
        · rw [h]
        · simp at h)
    exact ⟨w, hw⟩
  · exact (claim_C5_decode_tolerance
        (fun n : ℕ => if n = 0 then none else some ⟨8, 1, 1, fun _ _ => 0⟩) [0, 0] 0).2 rfl

/-- The pre-rendered ~1 s silent MP3 filler constant from `concatenateMp3`
(73 bytes, copied verbatim). -/
def SILENT_MP3_1S : List ℕ :=
  [0x49, 0x44, 0x33, 0x03, 0x00, 0x00, 0x00, 0x00, 0x00, 0x21, 0x54, 0x41, 0x47, 0x00, 0x00,
   0x00, 0x00, 0x00, 0x00, 0x00, 0x00, 0x00, 0x00, 0x54, 0x53, 0x53, 0x45, 0x00, 0x00, 0x00,
   0x0A, 0x00, 0x00, 0x00, 0x00, 0x00, 0x00, 0x00, 0x00, 0xFF, 0xFB, 0x92, 0x64, 0x00, 0x0F,
   0xFF, 0xFC, 0x21, 0x00, 0x3F, 0xFF, 0xF0, 0xC4, 0x00, 0xFF, 0xFF, 0xC2, 0x10, 0x03, 0xFF,
   0xFF, 0x0C, 0x40, 0x0F, 0xFF, 0xFC, 0x21, 0x00, 0x3F, 0xFF, 0xF0, 0xC4, 0x00]

/-- The ID3v2 synchsafe size field read in `concatenateMp3`:
`(bytes[6] & 0x7f) << 21 | (bytes[7] & 0x7f) << 14 | (bytes[8] & 0x7f) << 7 |
(bytes[9] & 0x7f)`.  An out-of-range `Uint8Array` read yields `undefined`,
and `undefined & 0x7f` is `0`, hence `getD _ 0`. -/
def id3Size (bytes : List ℕ) : ℕ :=
  ((bytes.getD 6 0) &&& 0x7f) <<< 21 ||| ((bytes.getD 7 0) &&& 0x7f) <<< 14 |||
    ((bytes.getD 8 0) &&& 0x7f) <<< 7 ||| ((bytes.getD 9 0) &&& 0x7f)

/-- Leading-metadata strip of `concatenateMp3` (applied when `idx > 0`):
`"ID3"` magic at offset 0 (JavaScript `===` against an out-of-range read is
false, and no byte equals 0x49/0x44/0x33 spuriously since `get?` is exact),
then drop `10 + size` bytes provided that is strictly smaller than the
buffer length; otherwise the buffer is left unstripped. -/
def stripLeadingID3 (bytes : List ℕ) : List ℕ :=
  if bytes.get? 0 = some 0x49 ∧ bytes.get? 1 = some 0x44 ∧ bytes.get? 2 = some 0x33 then
    if 10 + id3Size bytes < bytes.length then bytes.drop (10 + id3Size bytes) else bytes
  else bytes

/-- Trailing ID3v1 strip of `concatenateMp3` (applied when `idx < n - 1`):
if the buffer is longer than 128 bytes and its last 128 bytes start with
`"TAG"`, those 128 bytes are removed. -/
def stripTrailingTag (bytes : List ℕ) : List ℕ :=
  if 128 < bytes.length then
    if (bytes.drop (bytes.length - 128)).get? 0 = some 0x54 ∧
        (bytes.drop (bytes.length - 128)).get? 1 = some 0x41 ∧
        (bytes.drop (bytes.length - 128)).get? 2 = some 0x47 then
      bytes.take (bytes.length - 128)
    else bytes
  else bytes

/-- The per-buffer cleaning of `concatenateMp3` for index `idx` of `n`
buffers. -/
def cleanSegment (n idx : ℕ) (buf : List ℕ) : List ℕ :=
  let bytes := if 0 < idx then stripLeadingID3 buf else buf
  if idx < n - 1 then stripTrailingTag bytes else bytes

/-- The `cleaned` array built by `concatenateMp3`'s `forEach`: each cleaned
buffer is pushed, followed by the silence filler for every buffer except the
last. -/
def cleanedWithFillers (buffers : List (List ℕ)) : List (List ℕ) :=
  (buffers.enum.map (fun p =>
    cleanSegment buffers.length p.1 p.2 ::
      (if p.1 < buffers.length - 1 then [SILENT_MP3_1S] else []))).flatten

/-- Model of `concatenateMp3`: the concatenation of all entries of `cleaned`. -/
def concatenateMp3 (buffers : List (List ℕ)) : List ℕ :=
  (cleanedWithFillers buffers).flatten

theorem intercalate_single (S x : List ℕ) : List.intercalate S [x] = x := by
  simp [List.intercalate]

theorem intercalate_cons_cons (S x y : List ℕ) (zs : List (List ℕ)) :
    List.intercalate S (x :: y :: zs) = x ++ S ++ List.intercalate S (y :: zs) := by
  simp [List.intercalate, List.intersperse_cons_cons, List.flatten_cons, List.append_assoc]

theorem enumFrom_interleave_flatten (S : List ℕ) (m : ℕ) (c : ℕ → List ℕ → List ℕ) :
    ∀ (l : List (List ℕ)) (k : ℕ), k + l.length = m + 1 →
    (((List.enumFrom k l).map
        (fun p => c p.1 p.2 :: (if p.1 < m then [S] else []))).flatten).flatten
      = List.intercalate S ((List.enumFrom k l).map (fun p => c p.1 p.2)) := by
  intro l
  induction l with
  | nil =>
    intro k _
    simp [List.intercalate]
  | cons a t ih =>
    intro k hk
    cases t with
    | nil =>
      have hkm : ¬ (k < m) := by
        simp only [List.length_cons, List.length_nil] at hk
        omega
      have e1 : List.enumFrom k [a] = [(k, a)] := rfl
      rw [e1]
      simp [intercalate_single, hkm]
    | cons b u =>
      have hklt : k < m := by
        simp only [List.length_cons] at hk
        omega
      have e1 : List.enumFrom k (a :: b :: u) = (k, a) :: List.enumFrom (k + 1) (b :: u) :=
        rfl
      rw [e1]
      simp only [List.map_cons, List.flatten_cons, List.flatten_append, if_pos hklt]
      rw [ih (k + 1) (by simp only [List.length_cons] at hk ⊢; omega)]
      have e2 : List.enumFrom (k + 1) (b :: u) = (k + 1, b) :: List.enumFrom (k + 2) u := rfl
      rw [e2, List.map_cons, intercalate_cons_cons]
      simp [List.append_assoc]

/-- Claim C7: the lossy concatenation equals the cleaned segments joined with
the fixed silence filler between every pair (first conjunct); the leading
metadata block is stripped exactly when the magic is present and the declared
synchsafe size is consistent with the buffer length, and the buffer is left
unstripped otherwise; the trailing 128-byte block is stripped exactly when
present; the first buffer is never leading-stripped and the last never
trailing-stripped (second conjunct, the `idx` guards).  The function is total
(never throws) by construction. -/
theorem claim_C7_mp3_splice (buffers : List (List ℕ)) :
    concatenateMp3 buffers
      = List.intercalate SILENT_MP3_1S
          (buffers.enum.map (fun p => cleanSegment buffers.length p.1 p.2)) ∧
    (∀ idx buf, cleanSegment buffers.length idx buf
      = (if idx < buffers.length - 1
          then stripTrailingTag (if 0 < idx then stripLeadingID3 buf else buf)
          else (if 0 < idx then stripLeadingID3 buf else buf))) ∧
    (∀ buf : List ℕ, buf.get? 0 = some 0x49 → buf.get? 1 = some 0x44 →
      buf.get? 2 = some 0x33 → 10 + id3Size buf < buf.length →
      stripLeadingID3 buf = buf.drop (10 + id3Size buf)) ∧
    (∀ buf : List ℕ, buf.get? 0 = some 0x49 → buf.get? 1 = some 0x44 →
      buf.get? 2 = some 0x33 → ¬ (10 + id3Size buf < buf.length) →
      stripLeadingID3 buf = buf) ∧
    (∀ buf : List ℕ,
      ¬ (buf.get? 0 = some 0x49 ∧ buf.get? 1 = some 0x44 ∧ buf.get? 2 = some 0x33) →
      stripLeadingID3 buf = buf) ∧
    (∀ buf : List ℕ, 128 < buf.length →
      (buf.drop (buf.length - 128)).get? 0 = some 0x54 →
      (buf.drop (buf.length - 128)).get? 1 = some 0x41 →
      (buf.drop (buf.length - 128)).get? 2 = some 0x47 →
      stripTrailingTag buf = buf.take (buf.length - 128)) ∧
    (∀ buf : List ℕ,
      ¬ (128 < buf.length ∧ (buf.drop (buf.length - 128)).get? 0 = some 0x54 ∧
          (buf.drop (buf.length - 128)).get? 1 = some 0x41 ∧
          (buf.drop (buf.length - 128)).get? 2 = some 0x47) →
      stripTrailingTag buf = buf) := by
  refine ⟨?_, ?_, ?_, ?_, ?_, ?_, ?_⟩
  · cases buffers with
    | nil => rfl
    | cons b bs =>
      unfold concatenateMp3 cleanedWithFillers
      have he : (b :: bs).enum = List.enumFrom 0 (b :: bs) := rfl
      rw [he]
      exact enumFrom_interleave_flatten SILENT_MP3_1S ((b :: bs).length - 1)
        (fun i buf => cleanSegment (b :: bs).length i buf) (b :: bs) 0
        (by simp only [List.length_cons]; omega)
  · intro idx buf
    rfl
  · intro buf h0 h1 h2 hsz
    unfold stripLeadingID3
    rw [if_pos ⟨h0, h1, h2⟩, if_pos hsz]
  · intro buf h0 h1 h2 hsz
    unfold stripLeadingID3
    rw [if_pos ⟨h0, h1, h2⟩, if_neg hsz]
  · intro buf h
    unfold stripLeadingID3
    rw [if_neg h]
  · intro buf hlen h0 h1 h2
    unfold stripTrailingTag
    rw [if_pos hlen, if_pos ⟨h0, h1, h2⟩]
  · intro buf h
    unfold stripTrailingTag
    by_cases hlen : 128 < buf.length
    · rw [if_pos hlen, if_neg (fun hc => h ⟨hlen, hc⟩)]
    · rw [if_neg hlen]

theorem claim_C7_witness :
    concatenateMp3 [[1, 2], [3]]
      = List.intercalate SILENT_MP3_1S
          ([[1, 2], [3]].enum.map (fun p => cleanSegment [[1, 2], [3]].length p.1 p.2)) ∧
    stripLeadingID3 [0x49, 0x44, 0x33, 0, 0, 0, 0, 0, 0, 2, 99, 1, 2, 3]
      = [0x49, 0x44, 0x33, 0, 0, 0, 0, 0, 0, 2, 99, 1, 2, 3].drop
          (10 + id3Size [0x49, 0x44, 0x33, 0, 0, 0, 0, 0, 0, 2, 99, 1, 2, 3]) ∧
    stripLeadingID3 [0x49, 0x44, 0x33] = [0x49, 0x44, 0x33] :=
  ⟨(claim_C7_mp3_splice [[1, 2], [3]]).1,
    (claim_C7_mp3_splice [[1, 2], [3]]).2.2.1
      [0x49, 0x44, 0x33, 0, 0, 0, 0, 0, 0, 2, 99, 1, 2, 3] rfl rfl rfl (by decide),
    (claim_C7_mp3_splice [[1, 2], [3]]).2.2.2.1
      [0x49, 0x44, 0x33] rfl rfl rfl (by decide)⟩

theorem stripLeadingID3_shape (buf : List ℕ) :
    ∃ d, stripLeadingID3 buf = buf.drop d ∧
      (d = 0 ∨ (d = 10 + id3Size buf ∧ d < buf.length)) := by
  unfold stripLeadingID3
  split_ifs with h1 h2
  · exact ⟨10 + id3Size buf, rfl, Or.inr ⟨rfl, h2⟩⟩
  · exact ⟨0, (List.drop_zero _).symm, Or.inl rfl⟩
  · exact ⟨0, (List.drop_zero _).symm, Or.inl rfl⟩

theorem stripTrailingTag_shape (buf : List ℕ) :
    ∃ e, stripTrailingTag buf = buf.take (buf.length - e) ∧
      (e = 0 ∨ (e = 128 ∧ 128 < buf.length)) := by
  unfold stripTrailingTag
  split_ifs with h1 h2
  · exact ⟨128, rfl, Or.inr ⟨rfl, h1⟩⟩
  · exact ⟨0, by rw [Nat.sub_zero, List.take_length], Or.inl rfl⟩
  · exact ⟨0, by rw [Nat.sub_zero, List.take_length], Or.inl rfl⟩

theorem cleanSegment_shape (n idx : ℕ) (buf : List ℕ) :
    ∃ d e, d + e ≤ buf.length ∧
      cleanSegment n idx buf = (buf.drop d).take ((buf.drop d).length - e) ∧
      (d = 0 ∨ d = 10 + id3Size buf) ∧ (e = 0 ∨ e = 128) := by
  unfold cleanSegment
  by_cases hidx : 0 < idx
  · obtain ⟨d, hd, hdcase⟩ := stripLeadingID3_shape buf
    have hdlen : (stripLeadingID3 buf).length = buf.length - d := by
      rw [hd, List.length_drop]
    by_cases hlast : idx < n - 1
    · obtain ⟨e, he, hecase⟩ := stripTrailingTag_shape (stripLeadingID3 buf)
      refine ⟨d, e, ?_, ?_, ?_, ?_⟩
      · rcases hdcase with h | ⟨hd2, hdlt⟩ <;> rcases hecase with h2 | ⟨he2, helt⟩ <;>
          omega
      · simp only [if_pos hidx, if_pos hlast]
        rw [hd] at he
        rw [hd]
        exact he
      · rcases hdcase with h | ⟨h, -⟩
        · exact Or.inl h
        · exact Or.inr h
      · rcases hecase with h | ⟨h, -⟩
        · exact Or.inl h
        · exact Or.inr h
    · refine ⟨d, 0, ?_, ?_, ?_, Or.inl rfl⟩
      · rcases hdcase with h | ⟨-, hlt⟩ <;> omega
      · simp only [if_pos hidx, if_neg hlast]
        rw [Nat.sub_zero, List.take_length, hd]
      · rcases hdcase with h | ⟨h, -⟩
        · exact Or.inl h
        · exact Or.inr h
  · simp only [if_neg hidx]
    by_cases hlast : idx < n - 1
    · obtain ⟨e, he, hecase⟩ := stripTrailingTag_shape buf
      refine ⟨0, e, ?_, ?_, Or.inl rfl, ?_⟩
      · rcases hecase with h | ⟨h, hlt⟩ <;> omega
      · simp only [if_pos hlast]
        rw [List.drop_zero]
        exact he
      · rcases hecase with h | ⟨h, -⟩
        · exact Or.inl h
        · exact Or.inr h
    · refine ⟨0, 0, by omega, ?_, Or.inl rfl, Or.inl rfl⟩
      simp only [if_neg hlast]
      rw [List.drop_zero, Nat.sub_zero, List.take_length]

theorem sum_le_cleanedWithFillers (n : ℕ) :
    ∀ l : List (ℕ × List ℕ),
    ((l.map (fun p => cleanSegment n p.1 p.2)).map List.length).sum
      ≤ (((l.map (fun p => cleanSegment n p.1 p.2 ::
          (if p.1 < n - 1 then [SILENT_MP3_1S] else []))).flatten).map List.length).sum := by
  intro l
  induction l with
  | nil => exact le_refl _
  | cons a t ih =>
    simp only [List.map_cons, List.flatten_cons, List.sum_cons, List.map_append,
      List.sum_append]
    omega

/-- Claim C8: the lossy-path output is at least as long as the sum of the
cleaned (stripped) segment lengths — the filler insertion only adds bytes —
and each cleaned segment is a contiguous slice of its input that removes
bytes only from the detected leading header region (`10 + size` bytes from
the front) and/or the trailing 128-byte footer region, never from anywhere
else. -/
theorem claim_C8_length_lower_bound (buffers : List (List ℕ)) :
    ((buffers.enum.map (fun p => cleanSegment buffers.length p.1 p.2)).map
        List.length).sum
      ≤ (concatenateMp3 buffers).length ∧
    (∀ n idx (buf : List ℕ), ∃ d e, d + e ≤ buf.length ∧
      cleanSegment n idx buf = (buf.drop d).take ((buf.drop d).length - e) ∧
      (d = 0 ∨ d = 10 + id3Size buf) ∧ (e = 0 ∨ e = 128)) := by
  constructor
  · unfold concatenateMp3 cleanedWithFillers
    rw [List.length_flatten]
    exact sum_le_cleanedWithFillers buffers.length buffers.enum
  · intro n idx buf
    exact cleanSegment_shape n idx buf

/-- The `ttsFormat` UI state: `useState<"mp3" | "ogg" | "wav">`. -/
inductive TtsFormat where
  | mp3 : TtsFormat
  | ogg : TtsFormat
  | wav : TtsFormat
deriving DecidableEq

/-- What `triggerDownload` receives: blob bytes, MIME type, and filename. -/
structure Download where
  filename : String
  mime : String
  bytes : List ℕ
deriving DecidableEq

/-- The sequential fetch loop of `downloadFullDialogue`: each turn's audio is
awaited in order (`ensureAudio`), collected into `encoded`; a failed fetch
throws and aborts the loop. -/
def collectSegments {τ : Type} (ensureAudio : τ → Except String (List ℕ)) :
    List τ → Except String (List (List ℕ))
  | [] => .ok []
  | t :: rest =>
    match ensureAudio t with
    | .error e => .error e
    | .ok buf =>
      match collectSegments ensureAudio rest with
      | .error e => .error e
      | .ok bufs => .ok (buf :: bufs)

/-- Model of `downloadFullDialogue`: fetch all turns in order, then dispatch —
`concatenateMp3` when `ttsFormat === 'mp3'`, and `buildWavWithSilence`
otherwise (note: the `ogg` choice also takes the WAV branch) — and trigger a
download named `dialogue_{lang}_{level}.mp3` or `dialogue_{lang}_{level}.wav`
accordingly. -/
def downloadFullDialogue {τ : Type} (ensureAudio : τ → Except String (List ℕ))
    (turns : List τ) (ttsFormat : TtsFormat) (lang level : String)
    (decodeAudioData : List ℕ → Option DecodedSegment) (gapSeconds : ℚ) :
    Except String Download :=
  match collectSegments ensureAudio turns with
  | .error e => .error e
  | .ok encoded =>
    if ttsFormat = TtsFormat.mp3 then
      .ok ⟨"dialogue_" ++ lang ++ "_" ++ level ++ ".mp3", "audio/mpeg",
        concatenateMp3 encoded⟩
    else
      match buildWavWithSilence decodeAudioData encoded gapSeconds with
      | .error e => .error e
      | .ok wav =>
        .ok ⟨"dialogue_" ++ lang ++ "_" ++ level ++ ".wav", "audio/wav", wav⟩

theorem collectSegments_error {τ : Type} (ensureAudio : τ → Except String (List ℕ)) :
    ∀ turns : List τ, (∃ t ∈ turns, ∃ e, ensureAudio t = .error e) →
    ∃ e, collectSegments ensureAudio turns = .error e := by
  intro turns
  induction turns with
  | nil =>
    rintro ⟨t, ht, -⟩
    simp at ht
  | cons a rest ih =>
    rintro ⟨t, ht, e, he⟩
    cases hA : ensureAudio a with
    | error e2 =>
      refine ⟨e2, ?_⟩
      unfold collectSegments
      rw [hA]
    | ok buf =>
      have hrest : ∃ t ∈ rest, ∃ e, ensureAudio t = .error e := by
        rcases List.mem_cons.mp ht with h | h
        · subst h
          rw [hA] at he
          exact absurd he (by simp)
        · exact ⟨t, h, e, he⟩
      obtain ⟨e2, he2⟩ := ih hrest
      refine ⟨e2, ?_⟩
      unfold collectSegments
      rw [hA, he2]

/-- Claim C6: if the segment fetch fails for any turn, the whole assembly job
aborts with an error — no download value is produced — regardless of which
turn fails and of the chosen output format. -/
theorem claim_C6_fetch_failure_aborts {τ : Type} (ensureAudio : τ → Except String (List ℕ))
    (turns : List τ) (fmt : TtsFormat) (lang level : String)
    (dec : List ℕ → Option DecodedSegment) (g : ℚ)
    (hfail : ∃ t ∈ turns, ∃ e, ensureAudio t = .error e) :
    ∃ e, downloadFullDialogue ensureAudio turns fmt lang level dec g = .error e := by
  obtain ⟨e, he⟩ := collectSegments_error ensureAudio turns hfail
  refine ⟨e, ?_⟩
  unfold downloadFullDialogue
  rw [he]

theorem claim_C6_witness :
    ∃ e, downloadFullDialogue
      (fun n : ℕ => if n = 0 then .error "fetch failed" else .ok [1])
      [1, 0] TtsFormat.wav "en" "A1" (fun _ => none) 0 = .error e :=
  claim_C6_fetch_failure_aborts
    (fun n : ℕ => if n = 0 then .error "fetch failed" else .ok [1])
    [1, 0] TtsFormat.wav "en" "A1" (fun _ => none) 0
    ⟨0, by simp, "fetch failed", rfl⟩

/-- Counterexample to claim C9 as stated: with chosen format `ogg` — which is
not the lossless container — the orchestrator nevertheless dispatches to the
lossless WAV path and names the file with extension `wav`, not `ogg`; so
neither "lossless exactly when the chosen format is the lossless container"
nor "ext matches the chosen container format" holds. -/
theorem claim_C9_counterexample :
    Except.map (fun d => (d.filename, d.mime))
      (downloadFullDialogue (fun _ : ℕ => .ok [0]) [1] TtsFormat.ogg "en" "A1"
        (fun _ => some ⟨8, 1, 1, fun _ _ => 0⟩) 0)
      = .ok ("dialogue_en_A1.wav", "audio/wav") ∧
    TtsFormat.ogg ≠ TtsFormat.wav ∧ TtsFormat.ogg ≠ TtsFormat.mp3 := by
  refine ⟨by rfl, by decide, by decide⟩

/-- Claim C9 (amended): the orchestrator dispatches to the lossy MP3 splice
exactly when the chosen format is `mp3`, and to the lossless WAV path
otherwise — including for `ogg` — and a successful download is named
`dialogue_{lang}_{level}.{ext}` where `ext` matches the *produced* container:
`mp3` for the MP3 splice and `wav` for the WAV path. -/
theorem downloadFullDialogue_ok_col {τ : Type} (ensureAudio : τ → Except String (List ℕ))
    (turns : List τ) (fmt : TtsFormat) (lang level : String)
    (dec : List ℕ → Option DecodedSegment) (g : ℚ) (encoded : List (List ℕ))
    (hcol : collectSegments ensureAudio turns = .ok encoded) :
    downloadFullDialogue ensureAudio turns fmt lang level dec g =
      if fmt = TtsFormat.mp3 then
        .ok ⟨"dialogue_" ++ lang ++ "_" ++ level ++ ".mp3", "audio/mpeg",
          concatenateMp3 encoded⟩
      else
        match buildWavWithSilence dec encoded g with
        | .error e => .error e
        | .ok wav =>
          .ok ⟨"dialogue_" ++ lang ++ "_" ++ level ++ ".wav", "audio/wav", wav⟩ := by
  unfold downloadFullDialogue
  rw [hcol]

theorem claim_C9_dispatch_filename {τ : Type} (ensureAudio : τ → Except String (List ℕ))
    (turns : List τ) (fmt : TtsFormat) (lang level : String)
    (dec : List ℕ → Option DecodedSegment) (g : ℚ) (d : Download)
    (hok : downloadFullDialogue ensureAudio turns fmt lang level dec g = .ok d) :
    d.filename = "dialogue_" ++ lang ++ "_" ++ level ++
      (if fmt = TtsFormat.mp3 then ".mp3" else ".wav") ∧
    d.mime = (if fmt = TtsFormat.mp3 then "audio/mpeg" else "audio/wav") ∧
    (fmt = TtsFormat.mp3 → ∃ encoded, collectSegments ensureAudio turns = .ok encoded ∧
      d.bytes = concatenateMp3 encoded) ∧
    (fmt ≠ TtsFormat.mp3 → ∃ encoded, collectSegments ensureAudio turns = .ok encoded ∧
      buildWavWithSilence dec encoded g = .ok d.bytes) := by
  cases hcol : collectSegments ensureAudio turns with
  | error e =>
    unfold downloadFullDialogue at hok
    rw [hcol] at hok
    exact absurd hok (by simp)
  | ok encoded =>
    rw [downloadFullDialogue_ok_col ensureAudio turns fmt lang level dec g encoded hcol]
      at hok
    by_cases hfmt : fmt = TtsFormat.mp3
    · rw [if_pos hfmt] at hok
      have hd : d = ⟨"dialogue_" ++ lang ++ "_" ++ level ++ ".mp3", "audio/mpeg",
          concatenateMp3 encoded⟩ := (Except.ok.inj hok).symm
      subst hd
      refine ⟨by rw [if_pos hfmt], by rw [if_pos hfmt], ?_, ?_⟩
      · intro _
        exact ⟨encoded, rfl, rfl⟩
      · intro hne
        exact absurd hfmt hne
    · rw [if_neg hfmt] at hok
      cases hwav : buildWavWithSilence dec encoded g with
      | error e =>
        rw [hwav] at hok
        exact absurd hok (by simp)
      | ok wav =>
        rw [hwav] at hok
        have hd : d = ⟨"dialogue_" ++ lang ++ "_" ++ level ++ ".wav", "audio/wav", wav⟩ :=
          (Except.ok.inj hok).symm
        subst hd
        refine ⟨by rw [if_neg hfmt], by rw [if_neg hfmt], ?_, ?_⟩
        · intro hmp3
          exact absurd hmp3 hfmt
        · intro _
          exact ⟨encoded, rfl, hwav⟩

theorem claim_C9_witness :
    ∃ d, downloadFullDialogue (fun _ : ℕ => .ok [0]) [1] TtsFormat.ogg "en" "A1"
        (fun _ => some ⟨8, 1, 1, fun _ _ => 0⟩) 0 = .ok d ∧
      d.filename = "dialogue_" ++ "en" ++ "_" ++ "A1" ++
        (if TtsFormat.ogg = TtsFormat.mp3 then ".mp3" else ".wav") ∧
      d.mime = (if TtsFormat.ogg = TtsFormat.mp3 then "audio/mpeg" else "audio/wav") := by
  have hmap : Except.map (fun d : Download => (d.filename, d.mime))
      (downloadFullDialogue (fun _ : ℕ => .ok [0]) [1] TtsFormat.ogg "en" "A1"
        (fun _ => some ⟨8, 1, 1, fun _ _ => 0⟩) 0)
      = .ok ("dialogue_en_A1.wav", "audio/wav") := by rfl
  cases h : downloadFullDialogue (fun _ : ℕ => .ok [0]) [1] TtsFormat.ogg "en" "A1"
      (fun _ => some ⟨8, 1, 1, fun _ _ => 0⟩) 0 with
  | error e =>
    rw [h] at hmap
    exact absurd hmap (by simp [Except.map])
  | ok d =>
    have hd := claim_C9_dispatch_filename (fun _ : ℕ => .ok [0]) [1] TtsFormat.ogg "en"
      "A1" (fun _ => some ⟨8, 1, 1, fun _ _ => 0⟩) 0 d h
    exact ⟨d, rfl, hd.1, hd.2.1⟩

end TTSApp
